import Mathlib

/-!
Verification of the channel-id allocator (`allocator.go`) and the frame
codec of the amqp091 client, as a shallow embedding in Lean 4.

The Go `allocator` keeps a `*big.Int` bitset `pool`, a rolling cursor
`follow`, and bounds `low`/`high` (Go `int`s, modelled as `Int`; no value
in any claim approaches 2^63, so wraparound never matters).  `big.Int` is
an arbitrary-precision integer; only nonnegative values ever arise (the
pool starts at 0 and is modified by setting/clearing bits), so the pool is
modelled as `Nat`.

`big.Int.Bit(i)` and `big.Int.SetBit(_, i, _)` panic on a negative bit
index `i` (Go `math/big`: `if i < 0 { panic("negative bit index") }`;
`Bit` has an `i == 0` fast path, which is never negative).  Operations
that can reach such a panic are modelled in `Option`, with `none` for the
panic.
-/

namespace Amqp

/-- Go: `x | (1 << i)` — what `big.Int.SetBit(x, i, 1)` computes. -/
def setBitN (x i : Nat) : Nat := x ||| 2 ^ i

/-- Go: `x &^ (1 << i)` — what `big.Int.SetBit(x, i, 0)` computes.
AND-NOT on naturals, written as `x ^^^ (x &&& mask)` (bitwise identical:
a bit of `x` is flipped off exactly where both `x` and the mask have it
set). -/
def clearBitN (x i : Nat) : Nat := x ^^^ (x &&& 2 ^ i)

/-- Go struct `allocator { pool *big.Int; follow, low, high int }`. -/
structure Allocator where
  pool : Nat
  follow : Int
  low : Int
  high : Int
deriving Repr, DecidableEq

/-- Go `newAllocator(low, high)`. -/
def newAllocator (low high : Int) : Allocator :=
  { pool := 0, follow := low, low := low, high := high }

/-- Go `(a *allocator) reserved(n)`: `a.pool.Bit(n-a.low) == allocated`.
`Bit` panics (`none`) when `n - a.low < 0`. -/
def Allocator.reserved (a : Allocator) (n : Int) : Option Bool :=
  if n < a.low then none
  else some (a.pool.testBit (n - a.low).toNat)

/-- Go `(a *allocator) reserve(n)`: claims the bit if it is not already
claimed, returning true if successfully claimed.  Panics (`none`) when
`n - a.low < 0`, as `reserved`/`SetBit` do. -/
def Allocator.reserve (a : Allocator) (n : Int) : Option (Bool × Allocator) :=
  match a.reserved n with
  | none => none
  | some true => some (false, a)
  | some false =>
      some (true, { a with pool := setBitN a.pool (n - a.low).toNat })

/-- Go `(a *allocator) release(n)`: `a.pool.SetBit(a.pool, n-a.low, free)`.
`SetBit` panics (`none`) when `n - a.low < 0`. -/
def Allocator.release (a : Allocator) (n : Int) : Option Allocator :=
  if n < a.low then none
  else some { a with pool := clearBitN a.pool (n - a.low).toNat }

/-- The scanning loop of `next`: starting at id `f`, try `cnt` successive
ids, returning the first one whose bit is clear (`reserve` succeeds there
and the loop returns), or `none` when all `cnt` bits are set.  Indices are
taken relative to `alow` exactly as `reserved` does. -/
def scanFrom (pool : Nat) (alow : Int) (f : Int) : Nat → Option Int
  | 0 => none
  | c + 1 =>
      if pool.testBit (f - alow).toNat then scanFrom pool alow (f + 1) c
      else some f

/-- Go `(a *allocator) next()`.  The first loop scans `a.follow..a.high`,
the second scans `a.low..wrapped-1` (where `wrapped` is the cursor at
entry); the first free id is claimed and returned with `true`, else
`(0, false)`.  The deferred block then advances the cursor past the last
examined position, wrapping from `high` to `low`; on the failure path the
loops leave the cursor at `max a.low wrapped`.  The one reachable panic
(`none`): the first loop body calls `reserve(a.follow)` with
`a.follow < a.low`, a negative bit index — possible only if the loop runs
at all, i.e. `a.follow ≤ a.high`.  All other scanned indices are
`≥ a.low`. -/
def Allocator.next (a : Allocator) : Option (Int × Bool × Allocator) :=
  if a.follow < a.low ∧ a.follow ≤ a.high then none
  else
    let wrapped := a.follow
    let res :=
      match scanFrom a.pool a.low a.follow (a.high + 1 - a.follow).toNat with
      | some f => some f
      | none => scanFrom a.pool a.low a.low (wrapped - a.low).toNat
    match res with
    | some f =>
        some (f, true,
          { a with pool := setBitN a.pool (f - a.low).toNat,
                   follow := if f = a.high then a.low else f + 1 })
    | none =>
        some (0, false,
          { a with follow :=
              if max a.low wrapped = a.high then a.low
              else max a.low wrapped + 1 })

/-! ### Reachable allocator states -/

/-- States reachable from `newAllocator low high` by `next` calls and
in-range `release` calls (the operations the connection performs). -/
inductive Reach (low high : Int) : Allocator → Prop where
  | init : Reach low high (newAllocator low high)
  | step_next {a : Allocator} {n : Int} {ok : Bool} {a' : Allocator} :
      Reach low high a → a.next = some (n, ok, a') → Reach low high a'
  | step_release {a : Allocator} {n : Int} {a' : Allocator} :
      Reach low high a → low ≤ n → n ≤ high → a.release n = some a' →
      Reach low high a'

/-- Iterates `next` `k` times, keeping only the state (when a call would
panic the iteration stops there; reachable states never panic). -/
def nextN (a : Allocator) : Nat → Allocator
  | 0 => a
  | k + 1 =>
      match a.next with
      | some (_, _, a') => nextN a' k
      | none => a

/-! ### Operation sequences and the liveness invariant (C2) -/

/-- One caller-visible allocator operation. -/
inductive Op where
  | opNext : Op
  | opRelease : Int → Op

/-- Applies one operation to a state paired with the set of ids handed
out by successful `next` calls and not yet released (the "live" ids).
`release` is applied for in-range ids, as the connection does. -/
def applyOp (p : Allocator × Finset Int) : Op → Allocator × Finset Int
  | Op.opNext =>
      match p.1.next with
      | some (n, true, a') => (a', insert n p.2)
      | some (_, false, a') => (a', p.2)
      | none => p
  | Op.opRelease n =>
      if p.1.low ≤ n ∧ n ≤ p.1.high then
        match p.1.release n with
        | some a' => (a', p.2.erase n)
        | none => p
      else p

/-- Runs a sequence of operations from a fresh allocator. -/
def runOps (low high : Int) (ops : List Op) : Allocator × Finset Int :=
  ops.foldl applyOp (newAllocator low high, ∅)

/-! ### Release makes an id eligible for reuse (C3) -/

/-- Number of free ids in `[low, high]`. -/
def freeCount (low high : Int) (c : Allocator) : Nat :=
  ((Finset.Icc low high).filter (fun m => c.reserved m = some false)).card

/-! ### The diagnostic rendering (C7) -/

/-- Inner loop of `String`: starting at `p`, advance while the bit is
set, for at most `c` steps (`c` is chosen as the distance to
`a.high + 1`, where the loop's `high <= a.high` bound stops it in the
source). -/
def runEnd (pool : Nat) (alow : Int) : Int → Nat → Int
  | p, 0 => p
  | p, c + 1 =>
      if pool.testBit (p - alow).toNat then runEnd pool alow (p + 1) c else p

/-- Outer loop of `String`: at position `p`, find the end `h` of the
reserved run starting at `p`, print ` p..h-1` (two or more ids), ` p`
(a single id) or nothing (`p` free), and continue at `h + 1`.  `fuel`
bounds the number of iterations; the loop advances by at least one
position per iteration, so `a.high + 1 - a.low` iterations always
suffice. -/
def stringBody (pool : Nat) (alow ahigh : Int) : Int → Nat → String
  | _, 0 => ""
  | p, f + 1 =>
      if p ≤ ahigh then
        let h := runEnd pool alow p (ahigh + 1 - p).toNat
        let piece :=
          if h > p + 1 then " " ++ toString p ++ ".." ++ toString (h - 1)
          else if h > p then " " ++ toString (h - 1)
          else ""
        piece ++ stringBody pool alow ahigh (h + 1) f
      else ""

/-- Go `(a *allocator) String()`. -/
def allocString (a : Allocator) : String :=
  "allocator[" ++ toString a.low ++ ".." ++ toString a.high ++ "]" ++
    stringBody a.pool a.low a.high a.low (a.high + 1 - a.low).toNat

/-- Rendering of one maximal run, as the spec describes it: a run of two
or more reserved integers `s..e` as `" s..e"`, a singleton `s` as
`" s"`. -/
def renderRun (s e : Int) : String :=
  if s < e then " " ++ toString s ++ ".." ++ toString e
  else " " ++ toString s

/-- Modelled from the spec: `(s, e)` delimits a maximal run of
contiguous reserved integers inside `[low, high]` for the reservation
predicate `res`. -/
def IsMaxRun (res : Int → Prop) (low high s e : Int) : Prop :=
  low ≤ s ∧ s ≤ e ∧ e ≤ high ∧ (∀ m : Int, s ≤ m → m ≤ e → res m) ∧
  (s = low ∨ ¬res (s - 1)) ∧ (e = high ∨ ¬res (e + 1))

/-! ### The frame codec (C8)

The codec source of this repository is not part of `src/` (only the
allocator and an integration-test file are).  The definitions below are
therefore modelled from the spec, §4.2 and the §3 data model, and the
round-trip claim is settled against them.  Bytes are `Nat` values below
256; multi-byte integers are big-endian; every field-table value carries
a single-byte type tag; long strings, arrays and tables are
length-prefixed.  The concrete tag bytes are not fixed by the spec (the
AMQP table is treated as a static schema resource); distinct arbitrary
values are used.  Floats are carried as their raw 4/8-byte patterns
(the codec moves bytes; it never computes with the float value). -/

/-- Big-endian bytes of `n % 256 ^ w`, most significant first. -/
def beBytes : Nat → Nat → List Nat
  | 0, _ => []
  | w + 1, n => beBytes w (n / 256) ++ [n % 256]

/-- Big-endian value of a byte list. -/
def beVal (bs : List Nat) : Nat := bs.foldl (fun a b => a * 256 + b) 0

/-- Reads exactly `w` items, or fails (truncation fault). -/
def splitBytes (w : Nat) (s : List Nat) : Option (List Nat × List Nat) :=
  if w ≤ s.length then some (s.take w, s.drop w) else none

/-- Reads a `w`-byte big-endian integer. -/
def readBE (w : Nat) (s : List Nat) : Option (Nat × List Nat) :=
  match splitBytes w s with
  | some (bs, rest) => some (beVal bs, rest)
  | none => none

/-- Two's-complement representation of `i` in `w` bytes. -/
def toUnsigned (w : Nat) (i : Int) : Nat := (i % (256 : Int) ^ w).toNat

/-- Reads a two's-complement `w`-byte value back as a signed integer. -/
def decodeSigned (w : Nat) (n : Nat) : Int :=
  if 2 * n < 256 ^ w then (n : Int) else (n : Int) - 256 ^ w

/-- Modelled from the spec: the field-table value, a tagged union over
boolean, signed 8/16/32/64-bit integers, unsigned 8-bit integer,
32/64-bit floats (carried as raw bit patterns), decimal (scale and i32
value), short string, long string/bytes, 64-bit timestamp, array of
values, nested table (string keys, order preserved) and null.  String
and key bytes are `Nat` values below 256. -/
inductive FieldValue where
  | vBool (b : Bool)
  | vInt8 (i : Int)
  | vInt16 (i : Int)
  | vInt32 (i : Int)
  | vInt64 (i : Int)
  | vUInt8 (n : Nat)
  | vFloat32 (bits : Nat)
  | vFloat64 (bits : Nat)
  | vDecimal (scale : Nat) (val : Int)
  | vShortStr (s : List Nat)
  | vLongStr (s : List Nat)
  | vTimestamp (n : Nat)
  | vArray (vs : List FieldValue)
  | vTable (fs : List (List Nat × FieldValue))
  | vNull
deriving Repr

/- Tag bytes (arbitrary distinct values; the spec leaves the table to
the AMQP schema): bool 116, int8 98, int16 115, int32 73, int64 108,
uint8 66, float32 102, float64 100, decimal 68, short string 81, long
string 83, timestamp 84, array 65, table 70, null 86. -/

mutual

/-- Modelled from the spec: field-table value encoding.  Every value is
tagged with a single-byte discriminant; long strings, arrays and tables
are length-prefixed with a 4-byte big-endian byte count. -/
def encodeFV : FieldValue → List Nat
  | .vBool b => [116, if b then 1 else 0]
  | .vInt8 i => 98 :: beBytes 1 (toUnsigned 1 i)
  | .vInt16 i => 115 :: beBytes 2 (toUnsigned 2 i)
  | .vInt32 i => 73 :: beBytes 4 (toUnsigned 4 i)
  | .vInt64 i => 108 :: beBytes 8 (toUnsigned 8 i)
  | .vUInt8 n => 66 :: beBytes 1 n
  | .vFloat32 bits => 102 :: beBytes 4 bits
  | .vFloat64 bits => 100 :: beBytes 8 bits
  | .vDecimal sc v => 68 :: (beBytes 1 sc ++ beBytes 4 (toUnsigned 4 v))
  | .vShortStr s => 81 :: (s.length % 256) :: s
  | .vLongStr s => 83 :: (beBytes 4 s.length ++ s)
  | .vTimestamp n => 84 :: beBytes 8 n
  | .vArray vs => 65 :: (beBytes 4 (encodeList vs).length ++ encodeList vs)
  | .vTable fs => 70 :: (beBytes 4 (encodeTable fs).length ++ encodeTable fs)
  | .vNull => [86]

/-- Array body: concatenation of the element encodings. -/
def encodeList : List FieldValue → List Nat
  | [] => []
  | v :: vs => encodeFV v ++ encodeList vs

/-- Table body: for each entry, a length-prefixed short-string key
followed by the tagged value. -/
def encodeTable : List (List Nat × FieldValue) → List Nat
  | [] => []
  | (k, v) :: fs => (k.length % 256) :: (k ++ (encodeFV v ++ encodeTable fs))

end

mutual

/-- Fuel needed by the decoder on this value's encoding (one unit per
nesting step). -/
def sizeFV : FieldValue → Nat
  | .vArray vs => sizeList vs + 1
  | .vTable fs => sizeTable fs + 1
  | _ => 1

def sizeList : List FieldValue → Nat
  | [] => 0
  | v :: vs => max (sizeFV v) (sizeList vs) + 1

def sizeTable : List (List Nat × FieldValue) → Nat
  | [] => 0
  | (_, v) :: fs => max (sizeFV v) (sizeTable fs) + 1

end

mutual

/-- Modelled from the spec: a value the encoder can represent exactly —
all scalars within their wire width, string lengths within their length
prefix, bytes below 256, and array/table bodies below the 4-byte length
limit. -/
def validFV : FieldValue → Bool
  | .vBool _ => true
  | .vInt8 i => decide (-128 ≤ i ∧ i < 128)
  | .vInt16 i => decide (-32768 ≤ i ∧ i < 32768)
  | .vInt32 i => decide (-2147483648 ≤ i ∧ i < 2147483648)
  | .vInt64 i =>
      decide (-9223372036854775808 ≤ i ∧ i < 9223372036854775808)
  | .vUInt8 n => decide (n < 256)
  | .vFloat32 bits => decide (bits < 4294967296)
  | .vFloat64 bits => decide (bits < 18446744073709551616)
  | .vDecimal sc v =>
      decide (sc < 256) && decide (-2147483648 ≤ v ∧ v < 2147483648)
  | .vShortStr s => decide (s.length < 256) && s.all (· < 256)
  | .vLongStr s => decide (s.length < 4294967296) && s.all (· < 256)
  | .vTimestamp n => decide (n < 18446744073709551616)
  | .vArray vs => validList vs && decide ((encodeList vs).length < 4294967296)
  | .vTable fs =>
      validTable fs && decide ((encodeTable fs).length < 4294967296)
  | .vNull => true

def validList : List FieldValue → Bool
  | [] => true
  | v :: vs => validFV v && validList vs

def validTable : List (List Nat × FieldValue) → Bool
  | [] => true
  | (k, v) :: fs =>
      decide (k.length < 256) && k.all (· < 256) && validFV v && validTable fs

end

mutual

/-- Modelled from the spec: the field-table value decoder.  Reads the
tag byte, then the value bytes; fails (`none`) on an unknown tag
(decode fault) or a truncated stream (truncation fault).  `fuel` bounds
the recursion depth; `sizeFV` of the encoded value always suffices. -/
def decodeFV : Nat → List Nat → Option (FieldValue × List Nat)
  | 0, _ => none
  | _ + 1, [] => none
  | fuel + 1, t :: s =>
      if t = 116 then
        match s with
        | b :: s1 => some (.vBool (b == 1), s1)
        | [] => none
      else if t = 98 then
        match readBE 1 s with
        | some (n, s1) => some (.vInt8 (decodeSigned 1 n), s1)
        | none => none
      else if t = 115 then
        match readBE 2 s with
        | some (n, s1) => some (.vInt16 (decodeSigned 2 n), s1)
        | none => none
      else if t = 73 then
        match readBE 4 s with
        | some (n, s1) => some (.vInt32 (decodeSigned 4 n), s1)
        | none => none
      else if t = 108 then
        match readBE 8 s with
        | some (n, s1) => some (.vInt64 (decodeSigned 8 n), s1)
        | none => none
      else if t = 66 then
        match readBE 1 s with
        | some (n, s1) => some (.vUInt8 n, s1)
        | none => none
      else if t = 102 then
        match readBE 4 s with
        | some (n, s1) => some (.vFloat32 n, s1)
        | none => none
      else if t = 100 then
        match readBE 8 s with
        | some (n, s1) => some (.vFloat64 n, s1)
        | none => none
      else if t = 68 then
        match readBE 1 s with
        | some (sc, s1) =>
            match readBE 4 s1 with
            | some (n, s2) => some (.vDecimal sc (decodeSigned 4 n), s2)
            | none => none
        | none => none
      else if t = 81 then
        match s with
        | len :: s1 =>
            match splitBytes len s1 with
            | some (str, s2) => some (.vShortStr str, s2)
            | none => none
        | [] => none
      else if t = 83 then
        match readBE 4 s with
        | some (len, s1) =>
            match splitBytes len s1 with
            | some (str, s2) => some (.vLongStr str, s2)
            | none => none
        | none => none
      else if t = 84 then
        match readBE 8 s with
        | some (n, s1) => some (.vTimestamp n, s1)
        | none => none
      else if t = 65 then
        match readBE 4 s with
        | some (len, s1) =>
            match splitBytes len s1 with
            | some (body, s2) =>
                match decodeListFV fuel body with
                | some vs => some (.vArray vs, s2)
                | none => none
            | none => none
        | none => none
      else if t = 70 then
        match readBE 4 s with
        | some (len, s1) =>
            match splitBytes len s1 with
            | some (body, s2) =>
                match decodeTableFV fuel body with
                | some fs => some (.vTable fs, s2)
                | none => none
            | none => none
        | none => none
      else if t = 86 then some (.vNull, s)
      else none

/-- Decodes a whole array body into its element values. -/
def decodeListFV : Nat → List Nat → Option (List FieldValue)
  | _, [] => some []
  | 0, _ :: _ => none
  | fuel + 1, t :: s =>
      match decodeFV fuel (t :: s) with
      | some (v, s1) =>
          match decodeListFV fuel s1 with
          | some vs => some (v :: vs)
          | none => none
      | none => none

/-- Decodes a whole table body into its entries. -/
def decodeTableFV : Nat → List Nat → Option (List (List Nat × FieldValue))
  | _, [] => some []
  | 0, _ :: _ => none
  | fuel + 1, lk :: s =>
      match splitBytes lk s with
      | some (k, s1) =>
          match decodeFV fuel s1 with
          | some (v, s2) =>
              match decodeTableFV fuel s2 with
              | some fs => some ((k, v) :: fs)
              | none => none
          | none => none
      | none => none

end

/-- Top-level field-value decode; the input length always dominates the
needed fuel. -/
def decodeField (s : List Nat) : Option (FieldValue × List Nat) :=
  decodeFV s.length s

/-- Modelled from the spec: frame types. -/
inductive FrameType where
  | ftMethod
  | ftContentHeader
  | ftContentBody
  | ftHeartbeat
deriving Repr, DecidableEq

/-- Modelled from the spec: a frame is a type, a channel id and payload
bytes. -/
structure Frame where
  ftype : FrameType
  channel : Nat
  payload : List Nat
deriving Repr, DecidableEq

/-- Wire byte of each frame type (1/2/3/8, as in AMQP). -/
def frameTypeByte : FrameType → Nat
  | .ftMethod => 1
  | .ftContentHeader => 2
  | .ftContentBody => 3
  | .ftHeartbeat => 8

def decodeFrameType (t : Nat) : Option FrameType :=
  if t = 1 then some .ftMethod
  else if t = 2 then some .ftContentHeader
  else if t = 3 then some .ftContentBody
  else if t = 8 then some .ftHeartbeat
  else none

/-- Modelled from the spec: frame encoding — 1-byte type, 2-byte
channel id, 4-byte big-endian payload length, payload, then the 1-byte
frame-end marker (206 = 0xCE). -/
def encodeFrame (F : Frame) : List Nat :=
  frameTypeByte F.ftype ::
    (beBytes 2 F.channel ++ beBytes 4 F.payload.length ++ F.payload ++ [206])

/-- Modelled from the spec: a representable frame — channel id within 2
bytes, payload length within 4 bytes, payload made of bytes. -/
def validFrame (F : Frame) : Bool :=
  decide (F.channel < 65536) && decide (F.payload.length < 4294967296) &&
    F.payload.all (· < 256)

/-- Modelled from the spec: frame decoding — read the fixed header, read
exactly payload-length bytes, verify the frame-end marker; `none` models
the framing/truncation faults. -/
def decodeFrame (s : List Nat) : Option (Frame × List Nat) :=
  match s with
  | [] => none
  | t :: s1 =>
      match decodeFrameType t with
      | none => none
      | some ft =>
          match readBE 2 s1 with
          | none => none
          | some (ch, s2) =>
              match readBE 4 s2 with
              | none => none
              | some (len, s3) =>
                  match splitBytes len s3 with
                  | none => none
                  | some (payload, s4) =>
                      match s4 with
                      | [] => none
                      | e :: s5 =>
                          if e = 206 then some (⟨ft, ch, payload⟩, s5)
                          else none

theorem testBit_setBitN (x i j : Nat) :
    (setBitN x i).testBit j = (x.testBit j || decide (i = j)) := by
  simp [setBitN, Nat.testBit_or, Nat.testBit_two_pow]

theorem testBit_clearBitN (x i j : Nat) :
    (clearBitN x i).testBit j = (x.testBit j && !decide (i = j)) := by
  simp only [clearBitN, Nat.testBit_xor, Nat.testBit_and, Nat.testBit_two_pow]
  by_cases h : i = j
  · simp [h]
  · simp [h]

/-! ### Characterization of the scanning loop -/

theorem scanFrom_none_iff (pool : Nat) (alow f : Int) (c : Nat) :
    scanFrom pool alow f c = none ↔
      ∀ g : Int, f ≤ g → g < f + c → pool.testBit (g - alow).toNat = true := by
  induction c generalizing f with
  | zero =>
      simp only [scanFrom, true_iff]
      intro g hg hg'
      exact absurd hg' (by push_cast; omega)
  | succ c ih =>
      by_cases h : pool.testBit (f - alow).toNat
      · rw [scanFrom, if_pos h, ih (f + 1)]
        constructor
        · intro H g hg hg'
          rcases eq_or_lt_of_le hg with rfl | hgt
          · exact h
          · exact H g (by omega) (by push_cast at hg' ⊢; omega)
        · intro H g hg hg'
          exact H g (by omega) (by push_cast at hg' ⊢; omega)
      · rw [scanFrom, if_neg h]
        simp only [reduceCtorEq, false_iff, not_forall]
        exact ⟨f, le_rfl, by push_cast; omega, by simpa using h⟩

theorem scanFrom_some (pool : Nat) (alow f : Int) (c : Nat) (g : Int)
    (h : scanFrom pool alow f c = some g) :
    f ≤ g ∧ g < f + c ∧ pool.testBit (g - alow).toNat = false ∧
      ∀ m : Int, f ≤ m → m < g → pool.testBit (m - alow).toNat = true := by
  induction c generalizing f with
  | zero => simp [scanFrom] at h
  | succ c ih =>
      by_cases hb : pool.testBit (f - alow).toNat
      · rw [scanFrom, if_pos hb] at h
        obtain ⟨h1, h2, h3, h4⟩ := ih (f + 1) h
        refine ⟨by omega, by push_cast at h2 ⊢; omega, h3, ?_⟩
        intro m hm hm'
        rcases eq_or_lt_of_le hm with rfl | hmt
        · exact hb
        · exact h4 m (by omega) hm'
      · rw [scanFrom, if_neg hb] at h
        obtain rfl : f = g := by simpa using h
        refine ⟨le_rfl, by push_cast; omega, by simpa using hb, ?_⟩
        intro m hm hm'
        omega

/-! ### Characterization of `next` -/

/-- As long as the cursor is not below `low`, `next` never panics:
exhaustion is an ordinary return value. -/
theorem next_isSome (a : Allocator) (hlf : a.low ≤ a.follow) :
    a.next.isSome := by
  rw [Allocator.next, if_neg (by omega)]
  rcases hs : (match scanFrom a.pool a.low a.follow (a.high + 1 - a.follow).toNat with
      | some f => some f
      | none => scanFrom a.pool a.low a.low (a.follow - a.low).toNat) with _ | f <;>
    simp [hs]

theorem next_success_char (a : Allocator) (n : Int) (a' : Allocator)
    (hlf : a.low ≤ a.follow) (hfh : a.follow ≤ a.high)
    (h : a.next = some (n, true, a')) :
    a.low ≤ n ∧ n ≤ a.high ∧
    a.pool.testBit (n - a.low).toNat = false ∧
    a'.pool = setBitN a.pool (n - a.low).toNat ∧
    a'.low = a.low ∧ a'.high = a.high ∧
    a'.follow = (if n = a.high then a.low else n + 1) ∧
    ((a.follow ≤ n ∧
        ∀ m : Int, a.follow ≤ m → m < n → a.pool.testBit (m - a.low).toNat = true) ∨
     (n < a.follow ∧
        (∀ m : Int, a.follow ≤ m → m ≤ a.high → a.pool.testBit (m - a.low).toNat = true) ∧
        ∀ m : Int, a.low ≤ m → m < n → a.pool.testBit (m - a.low).toNat = true)) := by
  rw [Allocator.next, if_neg (by omega)] at h
  rcases hs : scanFrom a.pool a.low a.follow (a.high + 1 - a.follow).toNat with _ | f
  · rcases hs2 : scanFrom a.pool a.low a.low (a.follow - a.low).toNat with _ | f
    · simp [hs, hs2] at h
    · simp only [hs, hs2, Option.some.injEq, Prod.mk.injEq] at h
      obtain ⟨rfl, -, rfl⟩ := h
      obtain ⟨h1, h2, h3, h4⟩ := scanFrom_some _ _ _ _ _ hs2
      have hall := (scanFrom_none_iff a.pool a.low a.follow _).mp hs
      have hcnt : ((a.high + 1 - a.follow).toNat : Int) = a.high + 1 - a.follow := by
        omega
      have hcnt2 : ((a.follow - a.low).toNat : Int) = a.follow - a.low := by omega
      refine ⟨h1, by omega, h3, rfl, rfl, rfl, rfl, Or.inr ⟨by omega, ?_, ?_⟩⟩
      · intro m hm hm'
        exact hall m hm (by omega)
      · intro m hm hm'
        exact h4 m hm hm'
  · simp only [hs, Option.some.injEq, Prod.mk.injEq] at h
    obtain ⟨rfl, -, rfl⟩ := h
    obtain ⟨h1, h2, h3, h4⟩ := scanFrom_some _ _ _ _ _ hs
    have hcnt : ((a.high + 1 - a.follow).toNat : Int) = a.high + 1 - a.follow := by
      omega
    exact ⟨by omega, by omega, h3, rfl, rfl, rfl, rfl, Or.inl ⟨h1, h4⟩⟩

theorem next_failure_char (a : Allocator) (n : Int) (a' : Allocator)
    (hlf : a.low ≤ a.follow) (hfh : a.follow ≤ a.high)
    (h : a.next = some (n, false, a')) :
    n = 0 ∧ a'.pool = a.pool ∧ a'.low = a.low ∧ a'.high = a.high ∧
    a'.follow = (if a.follow = a.high then a.low else a.follow + 1) ∧
    ∀ m : Int, a.low ≤ m → m ≤ a.high → a.pool.testBit (m - a.low).toNat = true := by
  rw [Allocator.next, if_neg (by omega)] at h
  rcases hs : scanFrom a.pool a.low a.follow (a.high + 1 - a.follow).toNat with _ | f
  · rcases hs2 : scanFrom a.pool a.low a.low (a.follow - a.low).toNat with _ | f
    · simp only [hs, hs2, Option.some.injEq, Prod.mk.injEq] at h
      obtain ⟨rfl, -, rfl⟩ := h
      have hall := (scanFrom_none_iff a.pool a.low a.follow _).mp hs
      have hall2 := (scanFrom_none_iff a.pool a.low a.low _).mp hs2
      have hcnt : ((a.high + 1 - a.follow).toNat : Int) = a.high + 1 - a.follow := by
        omega
      have hcnt2 : ((a.follow - a.low).toNat : Int) = a.follow - a.low := by omega
      have hmax : max a.low a.follow = a.follow := by omega
      refine ⟨rfl, rfl, rfl, rfl, by simp [hmax], ?_⟩
      intro m hm hm'
      by_cases hmf : a.follow ≤ m
      · exact hall m hmf (by omega)
      · exact hall2 m hm (by omega)
    · simp [hs, hs2] at h
  · simp [hs] at h

/-- Every reachable state keeps its bounds and keeps the rolling cursor
inside `[low, high]`. -/
theorem reach_inv {low high : Int} {a : Allocator} (hlh : low ≤ high)
    (h : Reach low high a) :
    a.low = low ∧ a.high = high ∧ low ≤ a.follow ∧ a.follow ≤ high := by
  induction h with
  | init => exact ⟨rfl, rfl, le_rfl, hlh⟩
  | @step_next a n ok a' _ hnext ih =>
      obtain ⟨hl, hh, h1, h2⟩ := ih
      cases ok with
      | true =>
          obtain ⟨hn1, hn2, -, -, hl', hh', hf', hsc⟩ :=
            next_success_char a n a' (by omega) (by omega) hnext
          refine ⟨by omega, by omega, ?_, ?_⟩ <;>
            · rw [hf']
              split <;> omega
      | false =>
          obtain ⟨-, -, hl', hh', hf', -⟩ :=
            next_failure_char a n a' (by omega) (by omega) hnext
          refine ⟨by omega, by omega, ?_, ?_⟩ <;>
            · rw [hf']
              split <;> omega
  | @step_release a n a' _ hn1 hn2 hrel ih =>
      obtain ⟨hl, hh, h1, h2⟩ := ih
      rw [Allocator.release, if_neg (by omega)] at hrel
      obtain rfl : _ = a' := by simpa using hrel
      exact ⟨hl, hh, h1, h2⟩

theorem reserved_eq (a : Allocator) (m : Int) (h : a.low ≤ m) :
    a.reserved m = some (a.pool.testBit (m - a.low).toNat) := by
  rw [Allocator.reserved, if_neg (by omega)]

/-- C1: on every reachable state of an allocator over `[low, high]` with
`low ≤ high`, `next` returns (it never panics), it reports exhaustion
(`ok = false`) exactly when every id in `[low, high]` is reserved, and
otherwise it returns an id in `[low, high]` that was free before the call
and is reserved after it. -/
theorem next_exhaustion_iff_full (low high : Int) (a : Allocator)
    (hlh : low ≤ high) (hr : Reach low high a) :
    ∃ n ok a', a.next = some (n, ok, a') ∧
      (ok = false ↔ ∀ m : Int, low ≤ m → m ≤ high → a.reserved m = some true) ∧
      (ok = true → low ≤ n ∧ n ≤ high ∧
        a.reserved n = some false ∧ a'.reserved n = some true) := by
  obtain ⟨hl, hh, h1, h2⟩ := reach_inv hlh hr
  obtain ⟨⟨n, ok, a'⟩, hs⟩ :=
    Option.isSome_iff_exists.mp (next_isSome a (by omega))
  refine ⟨n, ok, a', hs, ?_, ?_⟩
  · cases ok with
    | true =>
        obtain ⟨hn1, hn2, hfree, hpool, hl', hh', -, -⟩ :=
          next_success_char a n a' (by omega) (by omega) hs
        simp only [Bool.true_eq_false, false_iff, not_forall]
        refine ⟨n, by omega, by omega, ?_⟩
        rw [reserved_eq a n (by omega), hfree]
        simp
    | false =>
        obtain ⟨-, -, -, -, -, hall⟩ :=
          next_failure_char a n a' (by omega) (by omega) hs
        simp only [true_iff]
        intro m hm hm'
        rw [reserved_eq a m (by omega), hall m (by omega) (by omega)]
  · intro hok
    subst hok
    obtain ⟨hn1, hn2, hfree, hpool, hl', hh', -, -⟩ :=
      next_success_char a n a' (by omega) (by omega) hs
    refine ⟨by omega, by omega, ?_, ?_⟩
    · rw [reserved_eq a n (by omega), hfree]
    · rw [reserved_eq a' n (by omega), hpool, hl', testBit_setBitN]
      simp

/-- C1 witness at `[1, 2]`, fresh allocator. -/
theorem next_exhaustion_iff_full_witness :
    (1 : Int) ≤ 2 ∧ Reach 1 2 (newAllocator 1 2) ∧
    (∃ n ok a', (newAllocator 1 2).next = some (n, ok, a') ∧
      (ok = false ↔
        ∀ m : Int, 1 ≤ m → m ≤ 2 → (newAllocator 1 2).reserved m = some true) ∧
      (ok = true → 1 ≤ n ∧ n ≤ 2 ∧
        (newAllocator 1 2).reserved n = some false ∧
        a'.reserved n = some true)) :=
  ⟨by norm_num, Reach.init,
    next_exhaustion_iff_full 1 2 (newAllocator 1 2) (by norm_num) Reach.init⟩

/-- C9: a `next` call that reports exhaustion returns id 0 and leaves the
pool and the bounds exactly as they were; only the cursor may change.
This holds for every state, reachable or not. -/
theorem next_failure_preserves_pool (a : Allocator) (n : Int) (a' : Allocator)
    (h : a.next = some (n, false, a')) :
    n = 0 ∧ a'.pool = a.pool ∧ a'.low = a.low ∧ a'.high = a.high := by
  rw [Allocator.next] at h
  by_cases hg : a.follow < a.low ∧ a.follow ≤ a.high
  · rw [if_pos hg] at h
    cases h
  · rw [if_neg hg] at h
    rcases hs : scanFrom a.pool a.low a.follow (a.high + 1 - a.follow).toNat with _ | f
    · rcases hs2 : scanFrom a.pool a.low a.low (a.follow - a.low).toNat with _ | f
      · simp only [hs, hs2, Option.some.injEq, Prod.mk.injEq] at h
        obtain ⟨rfl, -, rfl⟩ := h
        exact ⟨rfl, rfl, rfl, rfl⟩
      · simp [hs, hs2] at h
    · simp [hs] at h

/-- C9 witness: the exhausted one-element allocator. -/
theorem next_failure_preserves_pool_witness :
    (0 : Int) = 0 ∧
    (⟨1, 1, 1, 1⟩ : Allocator).pool = (⟨1, 1, 1, 1⟩ : Allocator).pool ∧
    (⟨1, 1, 1, 1⟩ : Allocator).low = (⟨1, 1, 1, 1⟩ : Allocator).low ∧
    (⟨1, 1, 1, 1⟩ : Allocator).high = (⟨1, 1, 1, 1⟩ : Allocator).high :=
  next_failure_preserves_pool ⟨1, 1, 1, 1⟩ 0 ⟨1, 1, 1, 1⟩ (by decide)

/-- C10: on every reachable state of an allocator over `[low, high]` with
`low ≤ high` (the fresh allocator included), `low ≤ follow ≤ high`, and
every id a successful `next` returns lies within `[low, high]`, with the
cursor again within `[low, high]` afterwards. -/
theorem follow_in_range (low high : Int) (a : Allocator)
    (hlh : low ≤ high) (hr : Reach low high a) :
    (low ≤ a.follow ∧ a.follow ≤ high) ∧
    ∀ n a', a.next = some (n, true, a') →
      low ≤ n ∧ n ≤ high ∧ low ≤ a'.follow ∧ a'.follow ≤ high := by
  obtain ⟨hl, hh, h1, h2⟩ := reach_inv hlh hr
  refine ⟨⟨h1, h2⟩, ?_⟩
  intro n a' hs
  obtain ⟨hn1, hn2, -, -, -, -, hf', -⟩ :=
    next_success_char a n a' (by omega) (by omega) hs
  rw [hf']
  constructor
  · omega
  constructor
  · omega
  split <;> omega

/-- C10 witness at `[1, 2]`, fresh allocator. -/
theorem follow_in_range_witness :
    ((1 : Int) ≤ (newAllocator 1 2).follow ∧ (newAllocator 1 2).follow ≤ 2) ∧
    ∀ n a', (newAllocator 1 2).next = some (n, true, a') →
      1 ≤ n ∧ n ≤ 2 ∧ 1 ≤ a'.follow ∧ a'.follow ≤ 2 :=
  follow_in_range 1 2 (newAllocator 1 2) (by norm_num) Reach.init

/-- C4: on a reachable state with at least one free id, `next` succeeds;
the id it claims is the smallest free id in `[follow, high]` when that
segment holds a free id, and otherwise the smallest free id in
`[low, follow)`; afterwards the cursor sits just past the claimed id,
wrapping from `high` back to `low`. -/
theorem next_scan_order (low high : Int) (a : Allocator)
    (hlh : low ≤ high) (hr : Reach low high a)
    (hfree : ∃ m : Int, low ≤ m ∧ m ≤ high ∧ a.reserved m = some false) :
    ∃ n a', a.next = some (n, true, a') ∧
      ((∃ m : Int, a.follow ≤ m ∧ m ≤ high ∧ a.reserved m = some false) →
        a.follow ≤ n ∧ n ≤ high ∧ a.reserved n = some false ∧
        ∀ m : Int, a.follow ≤ m → m < n → a.reserved m = some true) ∧
      ((∀ m : Int, a.follow ≤ m → m ≤ high → a.reserved m = some true) →
        low ≤ n ∧ n < a.follow ∧ a.reserved n = some false ∧
        ∀ m : Int, low ≤ m → m < n → a.reserved m = some true) ∧
      a'.follow = (if n = high then low else n + 1) := by
  obtain ⟨hl, hh, h1, h2⟩ := reach_inv hlh hr
  obtain ⟨⟨n, ok, a'⟩, hs⟩ :=
    Option.isSome_iff_exists.mp (next_isSome a (by omega))
  cases ok with
  | false =>
      obtain ⟨-, -, -, -, -, hall⟩ :=
        next_failure_char a n a' (by omega) (by omega) hs
      obtain ⟨m, hm1, hm2, hm3⟩ := hfree
      rw [reserved_eq a m (by omega), hall m (by omega) (by omega)] at hm3
      simp at hm3
  | true =>
      obtain ⟨hn1, hn2, hfree', -, -, -, hf', hsc⟩ :=
        next_success_char a n a' (by omega) (by omega) hs
      refine ⟨n, a', hs, ?_, ?_, by rw [hf', hh, hl]⟩
      · intro hup
        rcases hsc with ⟨hfn, hmin⟩ | ⟨hnf, hallup, -⟩
        · refine ⟨hfn, by omega, ?_, ?_⟩
          · rw [reserved_eq a n (by omega), hfree']
          · intro m hm hm'
            rw [reserved_eq a m (by omega), hmin m hm hm']
        · obtain ⟨m, hm1, hm2, hm3⟩ := hup
          rw [reserved_eq a m (by omega),
            hallup m (by omega) (by omega)] at hm3
          simp at hm3
      · intro hup
        rcases hsc with ⟨hfn, hmin⟩ | ⟨hnf, -, hmin⟩
        · have := hup n (by omega) (by omega)
          rw [reserved_eq a n (by omega), hfree'] at this
          simp at this
        · refine ⟨by omega, by omega, ?_, ?_⟩
          · rw [reserved_eq a n (by omega), hfree']
          · intro m hm hm'
            rw [reserved_eq a m (by omega), hmin m (by omega) hm']

/-- C4 witness at `[1, 2]`, fresh allocator (id 1 free). -/
theorem next_scan_order_witness :
    (1 : Int) ≤ 2 ∧ Reach 1 2 (newAllocator 1 2) ∧
    (∃ m : Int, 1 ≤ m ∧ m ≤ 2 ∧ (newAllocator 1 2).reserved m = some false) ∧
    (∃ n a', (newAllocator 1 2).next = some (n, true, a') ∧
      ((∃ m : Int, (newAllocator 1 2).follow ≤ m ∧ m ≤ 2 ∧
          (newAllocator 1 2).reserved m = some false) →
        (newAllocator 1 2).follow ≤ n ∧ n ≤ 2 ∧
        (newAllocator 1 2).reserved n = some false ∧
        ∀ m : Int, (newAllocator 1 2).follow ≤ m → m < n →
          (newAllocator 1 2).reserved m = some true) ∧
      ((∀ m : Int, (newAllocator 1 2).follow ≤ m → m ≤ 2 →
          (newAllocator 1 2).reserved m = some true) →
        1 ≤ n ∧ n < (newAllocator 1 2).follow ∧
        (newAllocator 1 2).reserved n = some false ∧
        ∀ m : Int, 1 ≤ m → m < n → (newAllocator 1 2).reserved m = some true) ∧
      a'.follow = (if n = 2 then 1 else n + 1)) :=
  ⟨by norm_num, Reach.init, ⟨1, by decide⟩,
    next_scan_order 1 2 (newAllocator 1 2) (by norm_num) Reach.init
      ⟨1, by decide⟩⟩

theorem nextN_exhausted_one (k : Nat) :
    nextN ⟨1, 1, 1, 1⟩ k = (⟨1, 1, 1, 1⟩ : Allocator) := by
  induction k with
  | zero => rfl
  | succ k ih =>
      rw [nextN,
        (by decide :
          (⟨1, 1, 1, 1⟩ : Allocator).next = some (0, false, ⟨1, 1, 1, 1⟩))]
      exact ih

/-- C5: over the range `[1, 1]`, the first `next` succeeds with id 1;
every later `next` reports exhaustion (and leaves the state fixed) for as
long as 1 stays reserved; after `release 1` the next `next` succeeds with
id 1 again. -/
theorem one_element_range_scenario :
    (newAllocator 1 1).next = some (1, true, ⟨1, 1, 1, 1⟩) ∧
    (∀ k : Nat, (nextN ⟨1, 1, 1, 1⟩ k).next = some (0, false, ⟨1, 1, 1, 1⟩)) ∧
    (⟨1, 1, 1, 1⟩ : Allocator).release 1 = some ⟨0, 1, 1, 1⟩ ∧
    (⟨0, 1, 1, 1⟩ : Allocator).next = some (1, true, ⟨1, 1, 1, 1⟩) := by
  refine ⟨by decide, ?_, by decide, by decide⟩
  intro k
  rw [nextN_exhausted_one]
  decide

/-- Clearing a bit that is not set leaves the word unchanged. -/
theorem clearBitN_of_testBit_false (x i : Nat) (h : x.testBit i = false) :
    clearBitN x i = x := by
  apply Nat.eq_of_testBit_eq
  intro j
  rw [testBit_clearBitN]
  by_cases hij : i = j
  · subst hij
    simp [h]
  · simp [hij]

/-- C6 counterexample: `release` does fail for some integer `n`.  On an
allocator over `[1, 5]`, `release 0` computes the bit index `0 - 1 = -1`
and `big.Int.SetBit` panics on a negative bit index. -/
theorem release_below_low_panics : (newAllocator 1 5).release 0 = none := by
  decide

/-- C6 (amended): `release n` never fails for every `n ≥ low` (so for
every `n` in `[low, high]` in particular); it touches only the pool, and
releasing an id that is not currently reserved leaves the allocator
completely unchanged. -/
theorem release_total_and_noop (a : Allocator) (n : Int) (h : a.low ≤ n) :
    ∃ a', a.release n = some a' ∧
      a'.low = a.low ∧ a'.high = a.high ∧ a'.follow = a.follow ∧
      (a.reserved n = some false → a' = a) := by
  rw [Allocator.release, if_neg (by omega)]
  refine ⟨_, rfl, rfl, rfl, rfl, ?_⟩
  intro hfree
  rw [reserved_eq a n (by omega)] at hfree
  simp only [Option.some.injEq] at hfree
  have := clearBitN_of_testBit_false a.pool (n - a.low).toNat hfree
  cases a
  simp_all

/-- C6 witness: releasing the free id 3 of a fresh `[1, 5]` allocator. -/
theorem release_total_and_noop_witness :
    (newAllocator 1 5).low ≤ 3 ∧
    ∃ a', (newAllocator 1 5).release 3 = some a' ∧
      a'.low = (newAllocator 1 5).low ∧ a'.high = (newAllocator 1 5).high ∧
      a'.follow = (newAllocator 1 5).follow ∧
      ((newAllocator 1 5).reserved 3 = some false → a' = newAllocator 1 5) :=
  ⟨by decide, release_total_and_noop (newAllocator 1 5) 3 (by decide)⟩

/-- `reserved` after setting the bit of an in-range id `m`. -/
theorem reserved_after_set (a a' : Allocator) (m n : Int)
    (hpool : a'.pool = setBitN a.pool (m - a.low).toNat)
    (hlow : a'.low = a.low) (hm : a.low ≤ m) (hn : a.low ≤ n) :
    a'.reserved n =
      some (a.pool.testBit (n - a.low).toNat || decide (m = n)) := by
  rw [reserved_eq a' n (by omega), hpool, hlow, testBit_setBitN]
  have hix : ((m - a.low).toNat = (n - a.low).toNat) ↔ m = n := by omega
  rw [decide_eq_decide.mpr hix]

/-- `reserved` after clearing the bit of an in-range id `m`. -/
theorem reserved_after_clear (a a' : Allocator) (m n : Int)
    (hpool : a'.pool = clearBitN a.pool (m - a.low).toNat)
    (hlow : a'.low = a.low) (hm : a.low ≤ m) (hn : a.low ≤ n) :
    a'.reserved n =
      some (a.pool.testBit (n - a.low).toNat && !decide (m = n)) := by
  rw [reserved_eq a' n (by omega), hpool, hlow, testBit_clearBitN]
  have hix : ((m - a.low).toNat = (n - a.low).toNat) ↔ m = n := by omega
  rw [decide_eq_decide.mpr hix]

theorem applyOp_inv (low high : Int) (hlh : low ≤ high)
    (p : Allocator × Finset Int) (op : Op)
    (h1 : Reach low high p.1)
    (h2 : ∀ n : Int, n ∈ p.2 ↔
      low ≤ n ∧ n ≤ high ∧ p.1.reserved n = some true) :
    Reach low high (applyOp p op).1 ∧
    ∀ n : Int, n ∈ (applyOp p op).2 ↔
      low ≤ n ∧ n ≤ high ∧ (applyOp p op).1.reserved n = some true := by
  obtain ⟨hl, hh, hf1, hf2⟩ := reach_inv hlh h1
  cases op with
  | opNext =>
      rcases hs : p.1.next with _ | ⟨m, ok, a'⟩
      · exact ⟨by simpa [applyOp, hs] using h1, by simp [applyOp, hs, h2]⟩
      cases ok with
      | true =>
          obtain ⟨hm1, hm2, hfree, hpool, hl', hh', -, -⟩ :=
            next_success_char p.1 m a' (by omega) (by omega) hs
          refine ⟨by simpa [applyOp, hs] using Reach.step_next h1 hs, ?_⟩
          intro n
          simp only [applyOp, hs, Finset.mem_insert, h2 n]
          constructor
          · rintro (rfl | ⟨hn1, hn2, hres⟩)
            · refine ⟨by omega, by omega, ?_⟩
              rw [reserved_after_set p.1 a' n n hpool hl' (by omega)
                (by omega)]
              simp
            · refine ⟨hn1, hn2, ?_⟩
              rw [reserved_eq p.1 n (by omega)] at hres
              rw [reserved_after_set p.1 a' m n hpool hl' (by omega)
                (by omega)]
              simp only [Option.some.injEq] at hres ⊢
              simp [hres]
          · rintro ⟨hn1, hn2, hres⟩
            rw [reserved_after_set p.1 a' m n hpool hl' (by omega)
              (by omega)] at hres
            simp only [Option.some.injEq, Bool.or_eq_true,
              decide_eq_true_eq] at hres
            rcases hres with hb | rfl
            · exact Or.inr ⟨hn1, hn2, by
                rw [reserved_eq p.1 n (by omega), hb]⟩
            · exact Or.inl rfl
      | false =>
          obtain ⟨-, hpool, hl', hh', -, -⟩ :=
            next_failure_char p.1 m a' (by omega) (by omega) hs
          refine ⟨by simpa [applyOp, hs] using Reach.step_next h1 hs, ?_⟩
          intro n
          simp only [applyOp, hs, h2 n]
          constructor
          · rintro ⟨hn1, hn2, hres⟩
            refine ⟨hn1, hn2, ?_⟩
            rw [reserved_eq p.1 n (by omega)] at hres
            rw [reserved_eq a' n (by omega), hpool, hl']
            exact hres
          · rintro ⟨hn1, hn2, hres⟩
            refine ⟨hn1, hn2, ?_⟩
            rw [reserved_eq a' n (by omega), hpool, hl'] at hres
            rwa [reserved_eq p.1 n (by omega)]
  | opRelease m =>
      by_cases hg : p.1.low ≤ m ∧ m ≤ p.1.high
      · have hrel : p.1.release m =
            some { p.1 with pool := clearBitN p.1.pool (m - p.1.low).toNat } := by
          rw [Allocator.release, if_neg (by omega)]
        refine ⟨?_, ?_⟩
        · have := Reach.step_release h1 (by omega) (by omega) hrel
          simpa [applyOp, hg, hrel] using this
        · intro n
          simp only [applyOp, hg, and_self, if_true, hrel, Finset.mem_erase,
            h2 n]
          constructor
          · rintro ⟨hne, hn1, hn2, hres⟩
            refine ⟨hn1, hn2, ?_⟩
            rw [reserved_eq p.1 n (by omega)] at hres
            rw [reserved_after_clear p.1
              ⟨clearBitN p.1.pool (m - p.1.low).toNat, p.1.follow, p.1.low,
                p.1.high⟩ m n rfl rfl (by omega) (by omega)]
            simp only [Option.some.injEq] at hres ⊢
            simp [hres, hne]
            omega
          · rintro ⟨hn1, hn2, hres⟩
            rw [reserved_after_clear p.1
              ⟨clearBitN p.1.pool (m - p.1.low).toNat, p.1.follow, p.1.low,
                p.1.high⟩ m n rfl rfl (by omega) (by omega)] at hres
            simp only [Option.some.injEq, Bool.and_eq_true, Bool.not_eq_true',
              decide_eq_false_iff_not] at hres
            exact ⟨fun hcon => hres.2 hcon.symm, hn1, hn2, by
              rw [reserved_eq p.1 n (by omega), hres.1]⟩
      · exact ⟨by simpa [applyOp, hg] using h1, by simp [applyOp, hg, h2]⟩

theorem runOps_inv (low high : Int) (hlh : low ≤ high) (ops : List Op) :
    Reach low high (runOps low high ops).1 ∧
    ∀ n : Int, n ∈ (runOps low high ops).2 ↔
      low ≤ n ∧ n ≤ high ∧ (runOps low high ops).1.reserved n = some true := by
  rw [runOps]
  generalize hp : ((newAllocator low high, (∅ : Finset Int)) :
      Allocator × Finset Int) = p
  have h1 : Reach low high p.1 := by rw [← hp]; exact Reach.init
  have h2 : ∀ n : Int, n ∈ p.2 ↔
      low ≤ n ∧ n ≤ high ∧ p.1.reserved n = some true := by
    rw [← hp]
    intro n
    simp only [Finset.not_mem_empty, false_iff, not_and]
    intro hn1 hn2
    rw [reserved_eq _ n (by simpa [newAllocator] using hn1)]
    simp [newAllocator]
  clear hp
  induction ops generalizing p with
  | nil => exact ⟨h1, h2⟩
  | cons op ops ih =>
      obtain ⟨h1', h2'⟩ := applyOp_inv low high hlh p op h1 h2
      exact ih (applyOp p op) h1' h2'

/-- C2: run any sequence of `next`/in-range-`release` operations from a
fresh allocator over `[low, high]` with `low ≤ high`.  A bit is set
exactly when that id was handed out by a successful `next` and not yet
released (so the live ids, kept as a set, are pairwise distinct), and
`next` never returns an id whose bit is currently set. -/
theorem bit_set_iff_live (low high : Int) (hlh : low ≤ high) (ops : List Op) :
    (∀ n : Int, n ∈ (runOps low high ops).2 ↔
      low ≤ n ∧ n ≤ high ∧ (runOps low high ops).1.reserved n = some true) ∧
    ∀ n a', (runOps low high ops).1.next = some (n, true, a') →
      (runOps low high ops).1.reserved n = some false := by
  obtain ⟨h1, h2⟩ := runOps_inv low high hlh ops
  refine ⟨h2, ?_⟩
  intro n a' hs
  obtain ⟨hl, hh, hf1, hf2⟩ := reach_inv hlh h1
  obtain ⟨hn1, hn2, hfree, -, -, -, -, -⟩ :=
    next_success_char _ n a' (by omega) (by omega) hs
  rw [reserved_eq _ n (by omega), hfree]

/-- C2 witness: the empty operation sequence over `[1, 2]`. -/
theorem bit_set_iff_live_witness :
    (1 : Int) ≤ 2 ∧
    ((∀ n : Int, n ∈ (runOps 1 2 []).2 ↔
      1 ≤ n ∧ n ≤ 2 ∧ (runOps 1 2 []).1.reserved n = some true) ∧
    ∀ n a', (runOps 1 2 []).1.next = some (n, true, a') →
      (runOps 1 2 []).1.reserved n = some false) :=
  ⟨by norm_num, bit_set_iff_live 1 2 (by norm_num) []⟩

theorem next_eventually_returns_free (low high n : Int) (hlh : low ≤ high)
    (hn1 : low ≤ n) (hn2 : n ≤ high) :
    ∀ fuel : Nat, ∀ c : Allocator, freeCount low high c ≤ fuel →
      Reach low high c → c.reserved n = some false →
      ∃ k a2, (nextN c k).next = some (n, true, a2) ∧
        ∀ j, j < k →
          ∃ m a3, (nextN c j).next = some (m, true, a3) ∧ m ≠ n := by
  intro fuel
  induction fuel with
  | zero =>
      intro c hfc hr hfree
      exfalso
      have hmem : n ∈ (Finset.Icc low high).filter
          (fun m => c.reserved m = some false) := by
        simp only [Finset.mem_filter, Finset.mem_Icc]
        exact ⟨⟨hn1, hn2⟩, hfree⟩
      have hpos := Finset.card_pos.mpr ⟨n, hmem⟩
      rw [freeCount] at hfc
      omega
  | succ fuel ih =>
      intro c hfc hr hfree
      obtain ⟨hl, hh, hf1, hf2⟩ := reach_inv hlh hr
      obtain ⟨⟨m, ok, c'⟩, hs⟩ :=
        Option.isSome_iff_exists.mp (next_isSome c (by omega))
      cases ok with
      | false =>
          obtain ⟨-, -, -, -, -, hall⟩ :=
            next_failure_char c m c' (by omega) (by omega) hs
          rw [reserved_eq c n (by omega), hall n (by omega) (by omega)] at hfree
          simp at hfree
      | true =>
          by_cases hmn : m = n
          · subst hmn
            exact ⟨0, c', hs, fun j hj => absurd hj (by omega)⟩
          · obtain ⟨hm1, hm2, hmfree, hpool, hl', hh', -, -⟩ :=
              next_success_char c m c' (by omega) (by omega) hs
            have hr' : Reach low high c' := Reach.step_next hr hs
            have hfree' : c'.reserved n = some false := by
              rw [reserved_after_set c c' m n hpool hl' (by omega) (by omega)]
              rw [reserved_eq c n (by omega)] at hfree
              simp only [Option.some.injEq] at hfree ⊢
              simp [hfree, hmn]
            have hfc' : freeCount low high c' ≤ fuel := by
              have hset : (Finset.Icc low high).filter
                    (fun x => c'.reserved x = some false) =
                  ((Finset.Icc low high).filter
                    (fun x => c.reserved x = some false)).erase m := by
                ext x
                simp only [Finset.mem_erase, Finset.mem_filter, Finset.mem_Icc]
                constructor
                · rintro ⟨⟨hx1, hx2⟩, hxf⟩
                  rw [reserved_after_set c c' m x hpool hl' (by omega)
                    (by omega)] at hxf
                  simp only [Option.some.injEq, Bool.or_eq_false_iff,
                    decide_eq_false_iff_not] at hxf
                  refine ⟨fun hc => hxf.2 hc.symm, ⟨hx1, hx2⟩, ?_⟩
                  rw [reserved_eq c x (by omega), hxf.1]
                · rintro ⟨hne, ⟨hx1, hx2⟩, hxf⟩
                  rw [reserved_eq c x (by omega)] at hxf
                  simp only [Option.some.injEq] at hxf
                  refine ⟨⟨hx1, hx2⟩, ?_⟩
                  rw [reserved_after_set c c' m x hpool hl' (by omega)
                    (by omega)]
                  simp only [Option.some.injEq, Bool.or_eq_false_iff,
                    decide_eq_false_iff_not]
                  exact ⟨hxf, fun hc => hne hc.symm⟩
              have hmmem : m ∈ (Finset.Icc low high).filter
                  (fun x => c.reserved x = some false) := by
                simp only [Finset.mem_filter, Finset.mem_Icc]
                refine ⟨⟨by omega, by omega⟩, ?_⟩
                rw [reserved_eq c m (by omega), hmfree]
              rw [freeCount] at hfc ⊢
              rw [hset, Finset.card_erase_of_mem hmmem]
              omega
            obtain ⟨k, a2, hk1, hk2⟩ := ih c' hfc' hr' hfree'
            refine ⟨k + 1, a2, ?_, ?_⟩
            · simp only [nextN, hs]
              exact hk1
            · intro j hj
              cases j with
              | zero => exact ⟨m, c', hs, hmn⟩
              | succ j =>
                  obtain ⟨m3, a3, h3, h4⟩ := hk2 j (by omega)
                  refine ⟨m3, a3, ?_, h4⟩
                  simp only [nextN, hs]
                  exact h3

/-- C3: after releasing an in-range id `n` on a reachable state,
`reserved n` reports false, and `n` is eligible for reuse: some later
`next` call returns `n` again, every earlier `next` call having claimed
(and so reserved) only ids different from `n`. -/
theorem release_then_reuse (low high n : Int) (a b : Allocator)
    (hlh : low ≤ high) (hr : Reach low high a)
    (hn1 : low ≤ n) (hn2 : n ≤ high) (hrel : a.release n = some b) :
    b.reserved n = some false ∧
    ∃ k a2, (nextN b k).next = some (n, true, a2) ∧
      ∀ j, j < k →
        ∃ m a3, (nextN b j).next = some (m, true, a3) ∧ m ≠ n := by
  obtain ⟨hl, hh, hf1, hf2⟩ := reach_inv hlh hr
  have hrb : Reach low high b := Reach.step_release hr (by omega) (by omega) hrel
  rw [Allocator.release, if_neg (by omega)] at hrel
  simp only [Option.some.injEq] at hrel
  have hfree : b.reserved n = some false := by
    rw [← hrel]
    rw [reserved_after_clear a
      ⟨clearBitN a.pool (n - a.low).toNat, a.follow, a.low, a.high⟩ n n
      rfl rfl (by omega) (by omega)]
    simp
  exact ⟨hfree, next_eventually_returns_free low high n hlh hn1 hn2
    (freeCount low high b) b le_rfl hrb hfree⟩

/-- C3 witness: over `[1, 1]`, release 1 on the full allocator; the very
next `next` call returns 1. -/
theorem release_then_reuse_witness :
    ((1 : Int) ≤ 1 ∧ Reach 1 1 (⟨1, 1, 1, 1⟩ : Allocator) ∧
      (⟨1, 1, 1, 1⟩ : Allocator).release 1 = some ⟨0, 1, 1, 1⟩) ∧
    ((⟨0, 1, 1, 1⟩ : Allocator).reserved 1 = some false ∧
      ∃ k a2, (nextN ⟨0, 1, 1, 1⟩ k).next = some (1, true, a2) ∧
        ∀ j, j < k →
          ∃ m a3, (nextN ⟨0, 1, 1, 1⟩ j).next = some (m, true, a3) ∧ m ≠ 1) :=
  ⟨⟨by norm_num,
      @Reach.step_next 1 1 (newAllocator 1 1) 1 true ⟨1, 1, 1, 1⟩ Reach.init
        (by decide), by decide⟩,
    release_then_reuse 1 1 1 ⟨1, 1, 1, 1⟩ ⟨0, 1, 1, 1⟩ (by norm_num)
      (@Reach.step_next 1 1 (newAllocator 1 1) 1 true ⟨1, 1, 1, 1⟩ Reach.init
        (by decide))
      (by norm_num) (by norm_num) (by decide)⟩

theorem string_join_cons (s : String) (l : List String) :
    String.join (s :: l) = s ++ String.join l := by
  cases s with
  | mk d =>
      rw [String.join_eq, String.join_eq]
      rfl

theorem runEnd_spec (pool : Nat) (alow : Int) :
    ∀ c : Nat, ∀ p : Int,
      p ≤ runEnd pool alow p c ∧ runEnd pool alow p c ≤ p + c ∧
      (∀ m : Int, p ≤ m → m < runEnd pool alow p c →
        pool.testBit (m - alow).toNat = true) ∧
      (runEnd pool alow p c = p + c ∨
        pool.testBit (runEnd pool alow p c - alow).toNat = false) := by
  intro c
  induction c with
  | zero =>
      intro p
      refine ⟨le_rfl, by simp [runEnd], ?_, Or.inl (by simp [runEnd])⟩
      intro m h1 h2
      rw [runEnd] at h2
      omega
  | succ c ih =>
      intro p
      by_cases hb : pool.testBit (p - alow).toNat
      · rw [runEnd, if_pos hb]
        obtain ⟨h1, h2, h3, h4⟩ := ih (p + 1)
        refine ⟨by omega, by push_cast at h2 ⊢; omega, ?_, ?_⟩
        · intro m hm1 hm2
          rcases eq_or_lt_of_le hm1 with rfl | hm
          · exact hb
          · exact h3 m (by omega) hm2
        · rcases h4 with h4 | h4
          · exact Or.inl (by push_cast at h4 ⊢; omega)
          · exact Or.inr h4
      · rw [runEnd, if_neg hb]
        refine ⟨le_rfl, by push_cast; omega, ?_, Or.inr (by simpa using hb)⟩
        intro m h1 h2
        omega

theorem stringBody_runs (pool : Nat) (alow ahigh : Int) :
    ∀ fuel : Nat, ∀ p : Int, alow ≤ p → ahigh + 1 ≤ p + fuel →
      (p ≤ ahigh → (p = alow ∨ pool.testBit (p - 1 - alow).toNat = false)) →
      ∃ runs : List (Int × Int),
        stringBody pool alow ahigh p fuel =
          String.join (runs.map (fun r => renderRun r.1 r.2)) ∧
        (∀ s e : Int, (s, e) ∈ runs ↔
          (IsMaxRun (fun m => pool.testBit (m - alow).toNat = true)
            alow ahigh s e ∧ p ≤ s)) ∧
        runs.Chain' (fun r q => r.2 < q.1) := by
  intro fuel
  induction fuel with
  | zero =>
      intro p hp hfuel hbd
      refine ⟨[], rfl, ?_, by simp⟩
      intro s e
      simp only [List.not_mem_nil, false_iff, not_and]
      rintro ⟨-, hse, he, -, -, -⟩ hps
      push_cast at hfuel
      omega
  | succ f ih =>
      intro p hp hfuel hbd
      by_cases hpa : p ≤ ahigh
      case neg =>
        refine ⟨[], by rw [stringBody, if_neg hpa]; rfl, ?_, by simp⟩
        intro s e
        simp only [List.not_mem_nil, false_iff, not_and]
        rintro ⟨-, hse, he, -, -, -⟩ hps
        omega
      case pos =>
      obtain ⟨hr1, hr2, hr3, hr4⟩ :=
        runEnd_spec pool alow (ahigh + 1 - p).toNat p
      set h := runEnd pool alow p (ahigh + 1 - p).toNat with hdef
      have hcnt : (((ahigh + 1 - p).toNat : Nat) : Int) = ahigh + 1 - p := by
        omega
      have hha : h ≤ ahigh + 1 := by omega
      have hend : h = ahigh + 1 ∨ pool.testBit (h - alow).toNat = false := by
        rcases hr4 with h4 | h4
        · exact Or.inl (by omega)
        · exact Or.inr h4
      by_cases hhp : h > p
      case neg =>
        -- free position: no output, run set unchanged
        have hhp' : h = p := by omega
        have hpfree : pool.testBit (p - alow).toNat = false := by
          rcases hend with h4 | h4
          · omega
          · rwa [hhp'] at h4
        obtain ⟨runs, hjoin, hmem, hchain⟩ :=
          ih (h + 1) (by omega) (by omega) (by
            intro hle
            right
            rwa [hhp', show p + 1 - 1 - alow = p - alow by omega])
        refine ⟨runs, ?_, ?_, hchain⟩
        · rw [stringBody, if_pos hpa, ← hdef]
          simp only [gt_iff_lt, show ¬(p + 1 < h) by omega, if_false,
            show ¬(p < h) by omega, if_false]
          simpa using hjoin
        · intro s e
          rw [hmem s e]
          constructor
          · rintro ⟨hmax, hps⟩
            exact ⟨hmax, by omega⟩
          · rintro ⟨hmax, hps⟩
            refine ⟨hmax, ?_⟩
            rcases eq_or_lt_of_le hps with heq | hlt
            · -- a run cannot start at the free position p
              exfalso
              obtain ⟨-, hse, -, hall, -, -⟩ := hmax
              have hres : pool.testBit (s - alow).toNat = true :=
                hall s le_rfl hse
              rw [← heq] at hres
              rw [hres] at hpfree
              cases hpfree
            · omega
      case pos =>
        -- reserved run [p, h-1]
        obtain ⟨runs, hjoin, hmem, hchain⟩ :=
          ih (h + 1) (by omega) (by omega) (by
            intro hle
            rcases hend with h4 | h4
            · omega
            · right
              rwa [show h + 1 - 1 - alow = h - alow by omega])
        have hmaxrun : IsMaxRun
            (fun m => pool.testBit (m - alow).toNat = true)
            alow ahigh p (h - 1) := by
          refine ⟨hp, by omega, by omega, ?_, ?_, ?_⟩
          · intro m hm1 hm2
            exact hr3 m hm1 (by omega)
          · rcases hbd hpa with h5 | h5
            · exact Or.inl h5
            · exact Or.inr (by simp [h5])
          · rcases hend with h4 | h4
            · exact Or.inl (by omega)
            · exact Or.inr (by
                rw [show h - 1 + 1 = h by omega]
                simp [h4])
        refine ⟨(p, h - 1) :: runs, ?_, ?_, ?_⟩
        · rw [stringBody, if_pos hpa, ← hdef]
          have hpiece :
              (if h > p + 1 then
                  " " ++ toString p ++ ".." ++ toString (h - 1)
                else if h > p then " " ++ toString (h - 1) else "") =
                renderRun p (h - 1) := by
            rw [renderRun]
            by_cases hh2 : h > p + 1
            · rw [if_pos hh2, if_pos (by omega)]
            · rw [if_neg hh2, if_pos hhp, if_neg (by omega),
                show h - 1 = p by omega]
          rw [List.map_cons, string_join_cons]
          show (if h > p + 1 then
              " " ++ toString p ++ ".." ++ toString (h - 1)
            else if h > p then " " ++ toString (h - 1) else "") ++
              stringBody pool alow ahigh (h + 1) f = _
          rw [hpiece, hjoin]
        · intro s e
          simp only [List.mem_cons, Prod.mk.injEq, hmem s e]
          constructor
          · rintro (⟨rfl, rfl⟩ | ⟨hmax, hps⟩)
            · exact ⟨hmaxrun, le_rfl⟩
            · exact ⟨hmax, by omega⟩
          · rintro ⟨hmax, hps⟩
            obtain ⟨hs1, hse, he1, hall, hleft, hright⟩ := hmax
            by_cases hsh : h + 1 ≤ s
            · exact Or.inr ⟨⟨hs1, hse, he1, hall, hleft, hright⟩, hsh⟩
            · -- the run must be exactly (p, h-1)
              have hsp : s = p := by
                rcases eq_or_lt_of_le hps with heq | hlt
                · omega
                exfalso
                rcases hleft with h5 | h5
                · omega
                · -- s - 1 lies inside the run [p, h), so it is reserved
                  exact h5 (hr3 (s - 1) (by omega) (by omega))
              subst hsp
              have heh : e = h - 1 := by
                by_cases heh' : e ≥ h
                · exfalso
                  have hresh : pool.testBit (h - alow).toNat = true :=
                    hall h (by omega) (by omega)
                  rcases hend with h4 | h4
                  · omega
                  · rw [hresh] at h4
                    cases h4
                · rcases hright with h5 | h5
                  · omega
                  · by_contra hne
                    exact h5 (hr3 (e + 1) (by omega) (by omega))
              exact Or.inl ⟨rfl, heh⟩
        · rw [List.chain'_cons']
          refine ⟨?_, hchain⟩
          intro q hq
          have hqmem : q ∈ runs := List.mem_of_mem_head? hq
          have := (hmem q.1 q.2).mp (by simpa using hqmem)
          omega

/-- C7: on every reachable state, `String` prints the header
`allocator[low..high]` followed by exactly the maximal runs of
contiguous reserved integers, in increasing order — `" s..e"` for a run
of two or more ids, `" s"` for a singleton, nothing for free ids. -/
theorem string_renders_maximal_runs (low high : Int) (a : Allocator)
    (hlh : low ≤ high) (hr : Reach low high a) :
    ∃ runs : List (Int × Int),
      allocString a =
        "allocator[" ++ toString low ++ ".." ++ toString high ++ "]" ++
          String.join (runs.map (fun r => renderRun r.1 r.2)) ∧
      (∀ s e : Int, (s, e) ∈ runs ↔
        IsMaxRun (fun m => a.reserved m = some true) low high s e) ∧
      runs.Chain' (fun r q => r.2 < q.1) := by
  obtain ⟨hl, hh, -, -⟩ := reach_inv hlh hr
  obtain ⟨runs, hjoin, hmem, hchain⟩ :=
    stringBody_runs a.pool a.low a.high (a.high + 1 - a.low).toNat a.low
      le_rfl (by omega) (fun _ => Or.inl rfl)
  refine ⟨runs, ?_, ?_, hchain⟩
  · rw [allocString, hjoin, hl, hh]
  · intro s e
    rw [hmem s e, hl, hh]
    constructor
    · rintro ⟨⟨h1, h2, h3, h4, h5, h6⟩, -⟩
      refine ⟨h1, h2, h3, ?_, ?_, ?_⟩
      · intro m hm1 hm2
        have hb : a.pool.testBit (m - low).toNat = true := h4 m hm1 hm2
        rw [reserved_eq a m (by omega), hl, hb]
      · rcases h5 with h5 | h5
        · exact Or.inl h5
        · refine Or.inr ?_
          intro hc
          by_cases hsl : low ≤ s - 1
          · rw [reserved_eq a (s - 1) (by omega), hl] at hc
            simp only [Option.some.injEq] at hc
            exact h5 hc
          · rw [Allocator.reserved, if_pos (by omega)] at hc
            cases hc
      · rcases h6 with h6 | h6
        · exact Or.inl h6
        · refine Or.inr ?_
          intro hc
          rw [reserved_eq a (e + 1) (by omega), hl] at hc
          simp only [Option.some.injEq] at hc
          exact h6 hc
    · rintro ⟨h1, h2, h3, h4, h5, h6⟩
      refine ⟨⟨h1, h2, h3, ?_, ?_, ?_⟩, h1⟩
      · intro m hm1 hm2
        have hres : a.reserved m = some true := h4 m hm1 hm2
        rw [reserved_eq a m (by omega), hl] at hres
        simpa using hres
      · by_cases hsl : s = low
        · exact Or.inl hsl
        · rcases h5 with h5 | h5
          · exact Or.inl h5
          · refine Or.inr ?_
            intro hc
            exact h5 (show a.reserved (s - 1) = some true by
              rw [reserved_eq a (s - 1) (by omega), hl, hc])
      · rcases h6 with h6 | h6
        · exact Or.inl h6
        · refine Or.inr ?_
          intro hc
          exact h6 (show a.reserved (e + 1) = some true by
            rw [reserved_eq a (e + 1) (by omega), hl, hc])

/-- C7 witness: the fresh `[1, 2]` allocator (no reserved ids, header
only). -/
theorem string_renders_maximal_runs_witness :
    (1 : Int) ≤ 2 ∧ Reach 1 2 (newAllocator 1 2) ∧
    ∃ runs : List (Int × Int),
      allocString (newAllocator 1 2) =
        "allocator[" ++ toString (1 : Int) ++ ".." ++ toString (2 : Int) ++
          "]" ++ String.join (runs.map (fun r => renderRun r.1 r.2)) ∧
      (∀ s e : Int, (s, e) ∈ runs ↔
        IsMaxRun (fun m => (newAllocator 1 2).reserved m = some true)
          1 2 s e) ∧
      runs.Chain' (fun r q => r.2 < q.1) :=
  ⟨by norm_num, Reach.init,
    string_renders_maximal_runs 1 2 (newAllocator 1 2) (by norm_num)
      Reach.init⟩

theorem beBytes_length (w n : Nat) : (beBytes w n).length = w := by
  induction w generalizing n with
  | zero => rfl
  | succ w ih => simp [beBytes, ih]

theorem beVal_beBytes (w n : Nat) : beVal (beBytes w n) = n % 256 ^ w := by
  induction w generalizing n with
  | zero => simp [beBytes, beVal, Nat.mod_one]
  | succ w ih =>
      rw [beBytes, beVal, List.foldl_append]
      have : List.foldl (fun a b => a * 256 + b) 0 (beBytes w (n / 256)) =
          n / 256 % 256 ^ w := ih (n / 256)
      rw [this]
      simp only [List.foldl_cons, List.foldl_nil]
      rw [pow_succ, Nat.mul_comm (256 ^ w) 256, Nat.mod_mul]
      omega

theorem splitBytes_append (l rest : List Nat) :
    splitBytes l.length (l ++ rest) = some (l, rest) := by
  rw [splitBytes, if_pos (by simp)]
  rw [List.take_left' rfl, List.drop_left' rfl]

theorem readBE_beBytes (w n : Nat) (rest : List Nat) :
    readBE w (beBytes w n ++ rest) = some (n % 256 ^ w, rest) := by
  rw [readBE]
  have h := splitBytes_append (beBytes w n) rest
  rw [beBytes_length] at h
  rw [h]
  simp only [Option.some.injEq, Prod.mk.injEq]
  exact ⟨beVal_beBytes w n, trivial⟩

theorem toUnsigned_lt (w : Nat) (i : Int) : toUnsigned w i < 256 ^ w := by
  have hpos : (0 : Int) < 256 ^ w := by positivity
  have := Int.emod_lt_of_pos i hpos
  have h2 := Int.emod_nonneg i (ne_of_gt hpos)
  rw [toUnsigned]
  have hcast : (((256 : Nat) ^ w : Nat) : Int) = (256 : Int) ^ w := by
    push_cast
    ring
  omega

theorem decodeSigned_toUnsigned (w : Nat) (i : Int)
    (h1 : -(256 ^ w : Int) ≤ 2 * i) (h2 : 2 * i < (256 ^ w : Int)) :
    decodeSigned w (toUnsigned w i) = i := by
  have hpos : (0 : Int) < 256 ^ w := by positivity
  have hnn : 0 ≤ i % (256 : Int) ^ w := Int.emod_nonneg i (ne_of_gt hpos)
  have hlt : i % (256 : Int) ^ w < 256 ^ w := Int.emod_lt_of_pos i hpos
  have hcast : ((toUnsigned w i : Nat) : Int) = i % (256 : Int) ^ w := by
    rw [toUnsigned]
    exact Int.toNat_of_nonneg hnn
  have hM : (((256 : Nat) ^ w : Nat) : Int) = (256 : Int) ^ w := by
    push_cast
    ring
  have hsplit : i % (256 : Int) ^ w = i ∨
      i % (256 : Int) ^ w = i + 256 ^ w := by
    rcases le_or_lt 0 i with hge | hlt0
    · exact Or.inl (Int.emod_eq_of_lt hge (by omega))
    · right
      have hself : (i + 256 ^ w * 1) % (256 : Int) ^ w = i % (256 : Int) ^ w :=
        Int.add_mul_emod_self_left i ((256 : Int) ^ w) 1
      rw [Int.mul_one] at hself
      rw [← hself, Int.emod_eq_of_lt (by omega) (by omega)]
  rw [decodeSigned]
  by_cases hc : 2 * toUnsigned w i < 256 ^ w
  · rw [if_pos hc]
    omega
  · rw [if_neg hc]
    omega

theorem encodeFV_length_pos (v : FieldValue) : 0 < (encodeFV v).length := by
  cases v <;> simp [encodeFV]

theorem sizeFV_pos (v : FieldValue) : 0 < sizeFV v := by
  cases v <;> simp [sizeFV]

theorem decodeFrameType_byte (ft : FrameType) :
    decodeFrameType (frameTypeByte ft) = some ft := by
  cases ft <;> rfl

theorem decodeListFV_cons (fuel : Nat) (t : Nat) (s : List Nat) :
    decodeListFV (fuel + 1) (t :: s) =
      match decodeFV fuel (t :: s) with
      | some (v, s1) =>
          match decodeListFV fuel s1 with
          | some vs => some (v :: vs)
          | none => none
      | none => none := rfl

theorem decodeTableFV_cons (fuel : Nat) (lk : Nat) (s : List Nat) :
    decodeTableFV (fuel + 1) (lk :: s) =
      match splitBytes lk s with
      | some (k, s1) =>
          match decodeFV fuel s1 with
          | some (v, s2) =>
              match decodeTableFV fuel s2 with
              | some fs => some ((k, v) :: fs)
              | none => none
          | none => none
      | none => none := rfl

set_option maxHeartbeats 1000000 in
/-- The decoder inverts the encoder given enough fuel, jointly for
values, array bodies and table bodies. -/
theorem decode_encode_fuel : ∀ fuel : Nat,
    (∀ (v : FieldValue) (rest : List Nat), validFV v = true →
      sizeFV v ≤ fuel → decodeFV fuel (encodeFV v ++ rest) = some (v, rest)) ∧
    (∀ vs : List FieldValue, validList vs = true → sizeList vs ≤ fuel →
      decodeListFV fuel (encodeList vs) = some vs) ∧
    (∀ fs : List (List Nat × FieldValue), validTable fs = true →
      sizeTable fs ≤ fuel → decodeTableFV fuel (encodeTable fs) = some fs) := by
  intro fuel
  induction fuel with
  | zero =>
      refine ⟨?_, ?_, ?_⟩
      · intro v rest hv hs
        have := sizeFV_pos v
        omega
      · intro vs hv hs
        cases vs with
        | nil => rfl
        | cons v vs => simp [sizeList] at hs
      · intro fs hv hs
        cases fs with
        | nil => rfl
        | cons kv fs =>
            obtain ⟨k, v⟩ := kv
            simp [sizeTable] at hs
  | succ fuel ih =>
      obtain ⟨ih1, ih2, ih3⟩ := ih
      refine ⟨?_, ?_, ?_⟩
      · intro v rest hv hs
        cases v with
        | vBool b => cases b <;> rfl
        | vInt8 i =>
            simp only [validFV, decide_eq_true_eq] at hv
            simp only [encodeFV, List.cons_append, decodeFV]
            norm_num
            simp only [readBE_beBytes]
            rw [Nat.mod_eq_of_lt (toUnsigned_lt 1 i),
              decodeSigned_toUnsigned 1 i (by norm_num; omega)
                (by norm_num; omega)]
        | vInt16 i =>
            simp only [validFV, decide_eq_true_eq] at hv
            simp only [encodeFV, List.cons_append, decodeFV]
            norm_num
            simp only [readBE_beBytes]
            rw [Nat.mod_eq_of_lt (toUnsigned_lt 2 i),
              decodeSigned_toUnsigned 2 i (by norm_num; omega)
                (by norm_num; omega)]
        | vInt32 i =>
            simp only [validFV, decide_eq_true_eq] at hv
            simp only [encodeFV, List.cons_append, decodeFV]
            norm_num
            simp only [readBE_beBytes]
            rw [Nat.mod_eq_of_lt (toUnsigned_lt 4 i),
              decodeSigned_toUnsigned 4 i (by norm_num; omega)
                (by norm_num; omega)]
        | vInt64 i =>
            simp only [validFV, decide_eq_true_eq] at hv
            simp only [encodeFV, List.cons_append, decodeFV]
            norm_num
            simp only [readBE_beBytes]
            rw [Nat.mod_eq_of_lt (toUnsigned_lt 8 i),
              decodeSigned_toUnsigned 8 i (by norm_num; omega)
                (by norm_num; omega)]
        | vUInt8 n =>
            simp only [validFV, decide_eq_true_eq] at hv
            simp only [encodeFV, List.cons_append, decodeFV]
            norm_num
            simp only [readBE_beBytes]
            rw [Nat.mod_eq_of_lt (show n < 256 ^ 1 by norm_num; omega)]
        | vFloat32 bits =>
            simp only [validFV, decide_eq_true_eq] at hv
            simp only [encodeFV, List.cons_append, decodeFV]
            norm_num
            simp only [readBE_beBytes]
            rw [Nat.mod_eq_of_lt (show bits < 256 ^ 4 by norm_num; omega)]
        | vFloat64 bits =>
            simp only [validFV, decide_eq_true_eq] at hv
            simp only [encodeFV, List.cons_append, decodeFV]
            norm_num
            simp only [readBE_beBytes]
            rw [Nat.mod_eq_of_lt (show bits < 256 ^ 8 by norm_num; omega)]
        | vDecimal sc v =>
            simp only [validFV, Bool.and_eq_true, decide_eq_true_eq] at hv
            simp only [encodeFV, List.cons_append, List.append_assoc,
              decodeFV]
            norm_num
            simp only [readBE_beBytes]
            rw [Nat.mod_eq_of_lt (show sc < 256 ^ 1 by norm_num; omega),
              Nat.mod_eq_of_lt (toUnsigned_lt 4 v),
              decodeSigned_toUnsigned 4 v (by norm_num; omega)
                (by norm_num; omega)]
        | vShortStr s =>
            simp only [validFV, Bool.and_eq_true, decide_eq_true_eq] at hv
            simp only [encodeFV, List.cons_append, decodeFV]
            norm_num
            rw [Nat.mod_eq_of_lt hv.1]
            simp only [splitBytes_append]
        | vLongStr s =>
            simp only [validFV, Bool.and_eq_true, decide_eq_true_eq] at hv
            simp only [encodeFV, List.cons_append, List.append_assoc,
              decodeFV]
            norm_num
            simp only [readBE_beBytes]
            rw [Nat.mod_eq_of_lt (show s.length < 256 ^ 4 by
              norm_num; omega)]
            simp only [splitBytes_append]
        | vTimestamp n =>
            simp only [validFV, decide_eq_true_eq] at hv
            simp only [encodeFV, List.cons_append, decodeFV]
            norm_num
            simp only [readBE_beBytes]
            rw [Nat.mod_eq_of_lt (show n < 256 ^ 8 by norm_num; omega)]
        | vArray vs =>
            simp only [validFV, Bool.and_eq_true, decide_eq_true_eq] at hv
            simp only [sizeFV] at hs
            have hdec := ih2 vs hv.1 (by omega)
            simp only [encodeFV, List.cons_append, List.append_assoc,
              decodeFV]
            norm_num
            simp only [readBE_beBytes]
            rw [Nat.mod_eq_of_lt (show (encodeList vs).length < 256 ^ 4 by
              norm_num; omega)]
            simp only [splitBytes_append, hdec]
        | vTable fs =>
            simp only [validFV, Bool.and_eq_true, decide_eq_true_eq] at hv
            simp only [sizeFV] at hs
            have hdec := ih3 fs hv.1 (by omega)
            simp only [encodeFV, List.cons_append, List.append_assoc,
              decodeFV]
            norm_num
            simp only [readBE_beBytes]
            rw [Nat.mod_eq_of_lt (show (encodeTable fs).length < 256 ^ 4 by
              norm_num; omega)]
            simp only [splitBytes_append, hdec]
        | vNull => rfl
      · intro vs hv hs
        cases vs with
        | nil => rfl
        | cons v vs =>
            simp only [validList, Bool.and_eq_true] at hv
            simp only [sizeList] at hs
            have h1 := ih1 v (encodeList vs) hv.1 (by omega)
            have h2 := ih2 vs hv.2 (by omega)
            show decodeListFV (fuel + 1) (encodeFV v ++ encodeList vs) =
              some (v :: vs)
            rcases henc : encodeFV v with _ | ⟨t, s1⟩
            · have := encodeFV_length_pos v
              rw [henc] at this
              simp at this
            · rw [List.cons_append, decodeListFV_cons]
              rw [show t :: (s1 ++ encodeList vs) =
                  encodeFV v ++ encodeList vs by
                rw [henc, List.cons_append]]
              simp only [h1, h2]
      · intro fs hv hs
        cases fs with
        | nil => rfl
        | cons kv fs =>
            obtain ⟨k, v⟩ := kv
            simp only [validTable, Bool.and_eq_true, decide_eq_true_eq] at hv
            simp only [sizeTable] at hs
            have h1 := ih1 v (encodeTable fs) hv.1.2 (by omega)
            have h2 := ih3 fs hv.2 (by omega)
            show decodeTableFV (fuel + 1)
              ((k.length % 256) :: (k ++ (encodeFV v ++ encodeTable fs))) =
                some ((k, v) :: fs)
            rw [decodeTableFV_cons, Nat.mod_eq_of_lt hv.1.1.1]
            simp only [splitBytes_append, h1, h2]

mutual

theorem sizeFV_le_encode (v : FieldValue) :
    sizeFV v ≤ (encodeFV v).length := by
  cases v with
  | vArray vs =>
      have h := sizeList_le_encode vs
      simp only [sizeFV, encodeFV, List.length_cons, List.length_append,
        beBytes_length]
      omega
  | vTable fs =>
      have h := sizeTable_le_encode fs
      simp only [sizeFV, encodeFV, List.length_cons, List.length_append,
        beBytes_length]
      omega
  | _ => simp [sizeFV, encodeFV]

theorem sizeList_le_encode (vs : List FieldValue) :
    sizeList vs ≤ (encodeList vs).length + 1 := by
  cases vs with
  | nil => simp [sizeList, encodeList]
  | cons v vs =>
      have h1 := sizeFV_le_encode v
      have h2 := sizeList_le_encode vs
      have h3 := encodeFV_length_pos v
      simp only [sizeList, encodeList, List.length_append]
      omega

theorem sizeTable_le_encode (fs : List (List Nat × FieldValue)) :
    sizeTable fs ≤ (encodeTable fs).length + 1 := by
  cases fs with
  | nil => simp [sizeTable, encodeTable]
  | cons kv fs =>
      obtain ⟨k, v⟩ := kv
      have h1 := sizeFV_le_encode v
      have h2 := sizeTable_le_encode fs
      simp only [sizeTable, encodeTable, List.length_cons, List.length_append]
      omega

end

/-- The frame codec round-trips on representable frames, leaving any
trailing bytes untouched. -/
theorem decodeFrame_encodeFrame (F : Frame) (hF : validFrame F = true)
    (rest : List Nat) : decodeFrame (encodeFrame F ++ rest) = some (F, rest) := by
  obtain ⟨ft, ch, payload⟩ := F
  simp only [validFrame, Bool.and_eq_true, decide_eq_true_eq] at hF
  simp only [encodeFrame, List.cons_append, List.append_assoc, decodeFrame]
  simp only [decodeFrameType_byte]
  simp only [readBE_beBytes]
  rw [Nat.mod_eq_of_lt (show ch < 256 ^ 2 by norm_num; omega),
    Nat.mod_eq_of_lt (show payload.length < 256 ^ 4 by norm_num; omega)]
  simp only [List.nil_append, splitBytes_append]
  norm_num

/-- The field codec round-trips on valid values, leaving any trailing
bytes untouched. -/
theorem decodeField_encodeFV (v : FieldValue) (hv : validFV v = true)
    (rest : List Nat) : decodeField (encodeFV v ++ rest) = some (v, rest) := by
  rw [decodeField]
  apply (decode_encode_fuel ((encodeFV v ++ rest).length)).1 v rest hv
  have h1 := sizeFV_le_encode v
  simp only [List.length_append]
  omega

/-- C8: `decode (encode F) = F` — the frame codec inverts itself on every
representable frame, and the field-table codec inverts itself on every
valid field value, nested tables, arrays and every supported scalar kind
included. -/
theorem codec_roundtrip :
    (∀ (F : Frame) (rest : List Nat), validFrame F = true →
      decodeFrame (encodeFrame F ++ rest) = some (F, rest)) ∧
    (∀ (v : FieldValue) (rest : List Nat), validFV v = true →
      decodeField (encodeFV v ++ rest) = some (v, rest)) :=
  ⟨fun F rest hF => decodeFrame_encodeFrame F hF rest,
   fun v rest hv => decodeField_encodeFV v hv rest⟩

/-- C8 witness: a concrete method frame, and a field table holding a
nested array with scalars, both round-tripped through the codec. -/
theorem codec_roundtrip_witness :
    (validFrame ⟨.ftMethod, 1, [0, 10, 0, 11]⟩ = true ∧
      decodeFrame (encodeFrame ⟨.ftMethod, 1, [0, 10, 0, 11]⟩ ++ [9]) =
        some (⟨.ftMethod, 1, [0, 10, 0, 11]⟩, [9])) ∧
    (validFV (.vTable [([107], .vArray [.vInt32 (-5), .vNull])]) = true ∧
      decodeField (encodeFV
          (.vTable [([107], .vArray [.vInt32 (-5), .vNull])]) ++ [7]) =
        some (.vTable [([107], .vArray [.vInt32 (-5), .vNull])], [7])) :=
  ⟨⟨rfl, codec_roundtrip.1 ⟨.ftMethod, 1, [0, 10, 0, 11]⟩ [9] rfl⟩,
   ⟨rfl, codec_roundtrip.2 (.vTable [([107], .vArray [.vInt32 (-5), .vNull])])
      [7] rfl⟩⟩

end Amqp
